import Mathlib

/-
Verification of the Santa decision-log scraper and ring-buffer windowing
subsystem (santa/ringbuffer.go, santa/santa_log.go, santa/main.go).

Go strings are embedded as `List Char`.  The Go standard-library string
operations used by the code (strings.TrimSpace, strings.Trim with a cutset,
strings.Cut, strings.Split with a one-character separator, strings.Index,
strings.Contains, strings.ToLower) are embedded as structural recursions on
`List Char`; whitespace and lower-casing use the ASCII subset of Unicode,
which is all the log format exercises.
-/

set_option autoImplicit false

namespace Santa

/-- Whitespace characters recognised by the embedding of strings.TrimSpace
(tab, newline, vertical tab, form feed, carriage return, space). -/
def isSpaceChar (c : Char) : Bool :=
  c = ' ' || c = Char.ofNat 9 || c = Char.ofNat 10 || c = Char.ofNat 11 ||
    c = Char.ofNat 12 || c = Char.ofNat 13

/-- The single-quote character. -/
def squote : Char := Char.ofNat 39

/-- The double-quote character. -/
def dquote : Char := Char.ofNat 34

/-- Membership in the cutset of the strings.Trim call in extractValues,
which removes double and single quotes. -/
def isQuoteChar (c : Char) : Bool := c = dquote || c = squote

/-- Drop the longest suffix all of whose characters satisfy p
(the right half of strings.Trim / strings.TrimSpace). -/
def dropRightW (p : Char → Bool) : List Char → List Char
  | [] => []
  | c :: cs =>
    match dropRightW p cs with
    | [] => if p c then [] else [c]
    | r => c :: r

/-- Embedding of strings.TrimSpace. -/
def trimSpaceL (l : List Char) : List Char :=
  dropRightW isSpaceChar (l.dropWhile isSpaceChar)

/-- Embedding of the strings.Trim(v, quote cutset) call in extractValues:
removes all leading and trailing quote characters. -/
def trimQuotesL (l : List Char) : List Char :=
  dropRightW isQuoteChar (l.dropWhile isQuoteChar)

/-- Embedding of strings.Cut s sep for a one-character separator:
split on the first occurrence of sep, or none when sep does not occur. -/
def splitFirst (sep : Char) : List Char → Option (List Char × List Char)
  | [] => none
  | c :: cs =>
    if c = sep then some ([], cs)
    else (splitFirst sep cs).map (fun p => (c :: p.1, p.2))

/-- Embedding of strings.Split s sep for a one-character separator. -/
def splitOnChar (sep : Char) : List Char → List (List Char)
  | [] => [[]]
  | c :: cs =>
    if c = sep then [] :: splitOnChar sep cs
    else
      match splitOnChar sep cs with
      | [] => [[c]]
      | s :: rest => (c :: s) :: rest

/-- Boolean list-prefix test (the matching primitive behind strings.Index
and strings.Contains). -/
def isPrefixL : List Char → List Char → Bool
  | [], _ => true
  | _ :: _, [] => false
  | a :: as, b :: bs => a = b && isPrefixL as bs

/-- Embedding of strings.Contains hay needle (needle is the first argument). -/
def containsSub (needle : List Char) : List Char → Bool
  | [] => isPrefixL needle []
  | h :: t => isPrefixL needle (h :: t) || containsSub needle t

/-- The kLogEntryPreface marker "santad: ". -/
def markerL : List Char := String.toList "santad: "

/-- Everything after the first occurrence of the marker, if the marker
occurs: models pos := strings.Index(line, kLogEntryPreface) followed by
the slice line[pos+len(kLogEntryPreface):]. -/
def afterMarker : List Char → Option (List Char)
  | [] => none
  | c :: cs =>
    if isPrefixL markerL (c :: cs) then some ((c :: cs).drop markerL.length)
    else afterMarker cs

/-- The run of non-right-bracket characters up to the first right bracket,
if a right bracket occurs at all. -/
def bracketRun : List Char → Option (List Char)
  | [] => none
  | c :: cs => if c = ']' then some [] else (bracketRun cs).map (c :: ·)

/-- Leftmost capture of the timestamp regex: the first bracketed
substring with a non-empty body. -/
def findTimestamp : List Char → Option (List Char)
  | [] => none
  | c :: cs =>
    if c = '[' then
      match bracketRun cs with
      | some run => if run.isEmpty then findTimestamp cs else some run
      | none => findTimestamp cs
    else findTimestamp cs

/-- A Go map[string]string value, embedded as a lookup function. -/
def SMap : Type := List Char → Option (List Char)

/-- The empty map. -/
def mapEmpty : SMap := fun _ => none

/-- Map update values[k] = v. -/
def mapInsert (m : SMap) (k v : List Char) : SMap :=
  fun q => if q = k then some v else m q

/-- Go map indexing values[k], which yields the zero string when the key
is absent. -/
def mapGet (m : SMap) (k : List Char) : List Char := (m k).getD []

/-- The key "timestamp". -/
def tsKey : List Char := String.toList "timestamp"

/-- The key "path". -/
def pathKey : List Char := String.toList "path"

/-- The key "reason". -/
def reasonKey : List Char := String.toList "reason"

/-- The key "sha256". -/
def shaKey : List Char := String.toList "sha256"

/-- ASCII lower-casing of a string, embedding strings.ToLower. -/
def lowerL (l : List Char) : List Char := l.map Char.toLower

/-- The state of the values map after the timestamp-regex step of
extractValues and before the key=value loop. -/
def tsOnlyMap (line : List Char) : SMap :=
  match findTimestamp line with
  | some ts => mapInsert mapEmpty tsKey ts
  | none => mapEmpty

/-- One iteration of the key=value loop body of extractValues:
trim the segment, skip it when empty, cut on the first equals sign,
lower-case and trim the key, trim the value and strip quote characters,
and store the pair only when both parts are non-empty. -/
def insertSeg (m : SMap) (seg : List Char) : SMap :=
  let s := trimSpaceL seg
  if s.isEmpty then m
  else
    match splitFirst '=' s with
    | none => m
    | some (k0, v0) =>
      let k := lowerL (trimSpaceL k0)
      let v := trimQuotesL (trimSpaceL v0)
      if k ≠ [] ∧ v ≠ [] then mapInsert m k v else m

/-- Embedding of extractValues from santa/santa_log.go. -/
def extractValues (line : List Char) : SMap :=
  match afterMarker line with
  | none => tsOnlyMap line
  | some rest => (splitOnChar '|' rest).foldl insertSeg (tsOnlyMap line)

/-- Value quoting rule as worded by claim C2: the value is stripped of
exactly one layer of surrounding matching quote characters. -/
def stripOneQuote (v : List Char) : List Char :=
  match v.head?, v.getLast? with
  | some a, some b =>
    if isQuoteChar a ∧ a = b ∧ 2 ≤ v.length then (v.drop 1).dropLast else v
  | _, _ => v

/-- Segment processing as worded by claim C2: split each segment on the
first equals sign, ignore segments without one, lower-case and
whitespace-trim the key, whitespace-trim the value and strip one layer of
surrounding matching quotes, and drop pairs with an empty key or value. -/
def insertSegClaim (m : SMap) (seg : List Char) : SMap :=
  match splitFirst '=' seg with
  | none => m
  | some (k0, v0) =>
    let k := lowerL (trimSpaceL k0)
    let v := stripOneQuote (trimSpaceL v0)
    if k ≠ [] ∧ v ≠ [] then mapInsert m k v else m

/-- extractValues as worded by claim C2 (differs from the code only in the
segment-processing rule). -/
def extractValuesClaim (line : List Char) : SMap :=
  match afterMarker line with
  | none => tsOnlyMap line
  | some rest => (splitOnChar '|' rest).foldl insertSegClaim (tsOnlyMap line)

/-- Segment processing as worded by the amended claim C2: as in
insertSegClaim, except that the value is stripped of all leading and
trailing quote characters, matching not required. -/
def insertSegAmended (m : SMap) (seg : List Char) : SMap :=
  match splitFirst '=' seg with
  | none => m
  | some (k0, v0) =>
    let k := lowerL (trimSpaceL k0)
    let v := trimQuotesL (trimSpaceL v0)
    if k ≠ [] ∧ v ≠ [] then mapInsert m k v else m

/-- extractValues as worded by the amended claim C2. -/
def extractValuesAmended (line : List Char) : SMap :=
  match afterMarker line with
  | none => tsOnlyMap line
  | some rest => (splitOnChar '|' rest).foldl insertSegAmended (tsOnlyMap line)

/-- A Santa log entry (santa/santa.go). -/
structure LogEntry where
  Timestamp : List Char
  Application : List Char
  Reason : List Char
  SHA256 : List Char
deriving DecidableEq

/-- The zero value of LogEntry, as produced by make([]LogEntry, n). -/
def emptyEntry : LogEntry := ⟨[], [], [], []⟩

/-- In-place update of one slot of the backing slice (r.buf[i] = e). -/
def listSet : List LogEntry → Nat → LogEntry → List LogEntry
  | [], _, _ => []
  | _ :: xs, 0, e => e :: xs
  | x :: xs, n + 1, e => x :: listSet xs n e

/-- The fixed-size circular buffer of santa/ringbuffer.go. -/
structure ringBuffer where
  buf : List LogEntry
  start : Nat
  size : Nat
deriving DecidableEq

/-- newRingBuffer n allocates a zeroed backing slice of length n. -/
def newRingBuffer (n : Nat) : ringBuffer :=
  ⟨List.replicate n emptyEntry, 0, 0⟩

namespace ringBuffer

/-- Embedding of ringBuffer.Add: no-op on a zero-length backing slice,
append at (start+size) mod capacity while growing, otherwise overwrite
the oldest slot and advance start. -/
def Add (r : ringBuffer) (e : LogEntry) : ringBuffer :=
  if r.buf.length = 0 then r
  else if r.size < r.buf.length then
    { r with buf := listSet r.buf ((r.start + r.size) % r.buf.length) e,
             size := r.size + 1 }
  else
    { r with buf := listSet r.buf r.start e,
             start := (r.start + 1) % r.buf.length }

/-- Embedding of ringBuffer.Len. -/
def Len (r : ringBuffer) : Nat := r.size

/-- Embedding of ringBuffer.SliceChrono: entries oldest to newest. -/
def SliceChrono (r : ringBuffer) : List LogEntry :=
  (List.range r.size).map (fun i => r.buf.getD ((r.start + i) % r.buf.length) emptyEntry)

end ringBuffer

/-- A sequence of Add calls. -/
def addList (r : ringBuffer) (es : List LogEntry) : ringBuffer :=
  es.foldl ringBuffer.Add r

/-- The decision filter selecting santa_allowed or santa_denied lines
(santa/santa.go). -/
inductive SantaDecisionType where
  | allowed
  | denied
deriving DecidableEq

/-- Outcomes of one scrapeStream call other than success: the error
returned can be the context's cancellation error or a scanner read
error, which callers can tell apart. -/
inductive StreamErr where
  | cancelled
  | ioErr
deriving DecidableEq

/-- The needle "decision=ALLOW". -/
def allowNeedle : List Char := String.toList "decision=ALLOW"

/-- The needle "decision=DENY". -/
def denyNeedle : List Char := String.toList "decision=DENY"

/-- The textual pre-filter of scrapeStream. -/
def decisionMatch (d : SantaDecisionType) (line : List Char) : Bool :=
  match d with
  | .allowed => containsSub allowNeedle line
  | .denied => containsSub denyNeedle line

/-- The entry a single line contributes in scrapeStream, if any: lines
failing the decision filter are skipped, and lines whose extracted map
makes values["timestamp"] read as the empty string are skipped. -/
def lineToEntry (d : SantaDecisionType) (line : List Char) : Option LogEntry :=
  if decisionMatch d line then
    let v := extractValues line
    if mapGet v tsKey = [] then none
    else some ⟨mapGet v tsKey, mapGet v pathKey, mapGet v reasonKey, mapGet v shaKey⟩
  else none

/-- All entries a list of lines contributes, in order. -/
def linesToEntries (d : SantaDecisionType) (lines : List (List Char)) : List LogEntry :=
  lines.filterMap (lineToEntry d)

/-- The loop of scrapeStream: the cancellation signal ctx gives the state
of ctx.Done() at the poll performed after the k-th successful Scan and
before the k-th line is processed; sErr tells whether the scanner
reports a read error once the lines are exhausted. -/
def scrapeStreamAux (ctx : Nat → Bool) (d : SantaDecisionType) (sErr : Bool) :
    Nat → ringBuffer → List (List Char) → ringBuffer × Option StreamErr
  | _, rb, [] => (rb, if sErr then some .ioErr else none)
  | k, rb, line :: rest =>
    if ctx k then (rb, some .cancelled)
    else
      let rb' :=
        match lineToEntry d line with
        | some e => rb.Add e
        | none => rb
      scrapeStreamAux ctx d sErr (k + 1) rb' rest

/-- Embedding of scrapeStream from santa/santa_log.go. -/
def scrapeStream (ctx : Nat → Bool) (lines : List (List Char)) (sErr : Bool)
    (d : SantaDecisionType) (rb : ringBuffer) : ringBuffer × Option StreamErr :=
  scrapeStreamAux ctx d sErr 0 rb lines

/-- The state of one numbered archive file {base}.N.gz: absent (os.Stat
fails), corrupt (os.Open or gzip.NewReader fails), or readable with the
given decompressed lines. -/
inductive ArchiveState where
  | absent
  | corrupt
  | good (lines : List (List Char))
deriving DecidableEq

/-- Abstract file-system state seen by one scrapeSantaLogFromBase call:
the list position i gives the state of archive {base}.i.gz (positions
beyond the list are absent), and current gives the lines of the current
log file, or none when opening it fails. -/
structure SantaFS where
  archives : List ArchiveState
  current : Option (List (List Char))

/-- The number of archives the discovery loop finds: it probes indices
0, 1, 2, ... and stops at the first index whose os.Stat fails, so only
the contiguous prefix of present archives counts. -/
def contiguousCount : List ArchiveState → Nat
  | [] => 0
  | a :: rest => if a = .absent then 0 else contiguousCount rest + 1

/-- Errors of scrapeSantaLogFromBase. -/
inductive SLogError where
  | archiveOpen (idx : Nat)
  | currentOpen
  | cancelled
  | ioErr
deriving DecidableEq

/-- The archive-processing loop of scrapeSantaLogFromBase, over the given
index order: each archive is opened and decompressed (failing hard when
it is corrupt or absent) and fed through scrapeStream into the shared
ring buffer. -/
def scrapeArchiveSeq (ctx : Nat → Bool) (d : SantaDecisionType) (fs : SantaFS) :
    List Nat → ringBuffer → Except SLogError ringBuffer
  | [], rb => .ok rb
  | i :: rest, rb =>
    match fs.archives.getD i .absent with
    | .good lines =>
      match scrapeStream ctx lines false d rb with
      | (rb', none) => scrapeArchiveSeq ctx d fs rest rb'
      | (_, some .cancelled) => .error .cancelled
      | (_, some .ioErr) => .error .ioErr
    | _ => .error (.archiveOpen i)

/-- var maxEntries = 10_000. -/
def maxEntries : Nat := 10000

/-- Embedding of scrapeSantaLogFromBase: probe the contiguous archives,
scrape them from the highest index down to 0, then the current log, and
return the ring buffer's chronological contents. -/
def scrapeSantaLogFromBase (ctx : Nat → Bool) (d : SantaDecisionType)
    (fs : SantaFS) : Except SLogError (List LogEntry) :=
  let c := contiguousCount fs.archives
  match scrapeArchiveSeq ctx d fs (List.range c).reverse (newRingBuffer maxEntries) with
  | .error e => .error e
  | .ok rb =>
    match fs.current with
    | none => .error .currentOpen
    | some lines =>
      match scrapeStream ctx lines false d rb with
      | (_, some .cancelled) => .error .cancelled
      | (_, some .ioErr) => .error .ioErr
      | (rb', none) => .ok rb'.SliceChrono

/-- One table row, as the list of column-name/value pairs built by the
generate callbacks of santa/main.go. -/
def Row : Type := List (List Char × List Char)

/-- The row built from one LogEntry. -/
def rowOfEntry (e : LogEntry) : Row :=
  [(tsKey, e.Timestamp), (String.toList "application", e.Application),
   (reasonKey, e.Reason), (shaKey, e.SHA256)]

/-- Embedding of generateSantaAllowed from santa/main.go: any scrape
error is swallowed and turned into an empty result with a nil error. -/
def generateSantaAllowed (ctx : Nat → Bool) (fs : SantaFS) :
    List Row × Option SLogError :=
  match scrapeSantaLogFromBase ctx .allowed fs with
  | .error _ => ([], none)
  | .ok entries => (entries.map rowOfEntry, none)

/-- Embedding of generateSantaDenied from santa/main.go. -/
def generateSantaDenied (ctx : Nat → Bool) (fs : SantaFS) :
    List Row × Option SLogError :=
  match scrapeSantaLogFromBase ctx .denied fs with
  | .error _ => ([], none)
  | .ok entries => (entries.map rowOfEntry, none)

/-- The last n elements of a list, in order. -/
def lastN (n : Nat) (l : List LogEntry) : List LogEntry :=
  l.drop (l.length - n)

/-- Entries contributed by a list of line-sources, concatenated in
source order. -/
def concatEntries (d : SantaDecisionType) : List (List (List Char)) → List LogEntry
  | [] => []
  | s :: rest => linesToEntries d s ++ concatEntries d rest

/-- The always-unarmed cancellation signal. -/
def noCancel : Nat → Bool := fun _ => false

lemma length_listSet (l : List LogEntry) (n : Nat) (e : LogEntry) :
    (listSet l n e).length = l.length := by
  induction l generalizing n with
  | nil => rfl
  | cons x xs ih =>
    cases n with
    | zero => rfl
    | succ m => simp [listSet, ih]

lemma getD_listSet_self {l : List LogEntry} {n : Nat} (e : LogEntry) (h : n < l.length) :
    (listSet l n e).getD n emptyEntry = e := by
  induction l generalizing n with
  | nil => simp at h
  | cons x xs ih =>
    cases n with
    | zero => rfl
    | succ m => simpa [listSet] using ih (Nat.lt_of_succ_lt_succ h)

lemma getD_listSet_ne (l : List LogEntry) {n m : Nat} (e : LogEntry) (h : m ≠ n) :
    (listSet l n e).getD m emptyEntry = l.getD m emptyEntry := by
  induction l generalizing n m with
  | nil => rfl
  | cons x xs ih =>
    cases n with
    | zero =>
      cases m with
      | zero => exact absurd rfl h
      | succ k => simp [listSet]
    | succ n' =>
      cases m with
      | zero => simp [listSet]
      | succ k => simpa [listSet] using ih (fun hh => h (by rw [hh]))

lemma length_SliceChrono (r : ringBuffer) : r.SliceChrono.length = r.size := by
  simp [ringBuffer.SliceChrono]

lemma SliceChrono_getElem (r : ringBuffer) (i : Nat) (h : i < r.SliceChrono.length) :
    r.SliceChrono[i] = r.buf.getD ((r.start + i) % r.buf.length) emptyEntry := by
  simp [ringBuffer.SliceChrono]

lemma addModInj {s a b C : Nat} (ha : a < C) (hb : b < C)
    (h : (s + a) % C = (s + b) % C) : a = b := by
  have h' : a % C = b % C := Nat.ModEq.add_left_cancel' s h
  rwa [Nat.mod_eq_of_lt ha, Nat.mod_eq_of_lt hb] at h'

/-- Reference behaviour of one Add on the chronological contents: append
while below capacity, otherwise evict the oldest entry. -/
def qAdd (C : Nat) (q : List LogEntry) (e : LogEntry) : List LogEntry :=
  if q.length < C then q ++ [e] else q.drop 1 ++ [e]

/-- Reference behaviour of a sequence of Adds. -/
def qAddList (C : Nat) (q : List LogEntry) (es : List LogEntry) : List LogEntry :=
  es.foldl (qAdd C) q

/-- Representation invariant tying a ring buffer to its chronological
contents. -/
def rbRep (r : ringBuffer) (q : List LogEntry) : Prop :=
  0 < r.buf.length ∧ r.start < r.buf.length ∧ r.size = q.length ∧
    q.length ≤ r.buf.length ∧ r.SliceChrono = q

lemma Add_buf_length (r : ringBuffer) (e : LogEntry) :
    (r.Add e).buf.length = r.buf.length := by
  unfold ringBuffer.Add
  split
  · rfl
  · split <;> simp [length_listSet]

lemma rbRep_Add {r : ringBuffer} {q : List LogEntry} (hr : rbRep r q) (e : LogEntry) :
    rbRep (r.Add e) (qAdd r.buf.length q e) := by
  obtain ⟨hpos, hstart, hsize, hle, hslice⟩ := hr
  have hC0 : ¬ r.buf.length = 0 := Nat.pos_iff_ne_zero.mp hpos
  have hget : ∀ i (h : i < q.length),
      q[i] = r.buf.getD ((r.start + i) % r.buf.length) emptyEntry := by
    intro i h
    have h' : i < r.SliceChrono.length := by rw [length_SliceChrono]; omega
    exact (List.getElem_of_eq hslice.symm h).trans (SliceChrono_getElem r i h')
  by_cases hfull : r.size < r.buf.length
  · -- growing case: write at (start+size) mod capacity
    have hAdd : r.Add e =
        { r with buf := listSet r.buf ((r.start + r.size) % r.buf.length) e,
                 size := r.size + 1 } := by
      simp [ringBuffer.Add, hC0, hfull]
    have hqlt : q.length < r.buf.length := hsize ▸ hfull
    have hq : qAdd r.buf.length q e = q ++ [e] := by simp [qAdd, hqlt]
    rw [hAdd, hq]
    refine ⟨?_, ?_, ?_, ?_, ?_⟩
    · simpa [length_listSet] using hpos
    · simpa [length_listSet] using hstart
    · simp [hsize]
    · simp [length_listSet]; omega
    · apply List.ext_getElem
      · simp [length_SliceChrono, hsize]
      · intro i h1 h2
        have hi : i < r.size + 1 := by simpa [length_SliceChrono] using h1
        rw [SliceChrono_getElem _ i h1]
        simp only [length_listSet]
        rcases Nat.lt_succ_iff_lt_or_eq.mp hi with hilt | hieq
        · -- untouched slot
          have hne : (r.start + i) % r.buf.length ≠ (r.start + r.size) % r.buf.length := by
            intro hcon
            exact absurd (addModInj (lt_trans hilt hfull) hfull hcon) (Nat.ne_of_lt hilt)
          have hia : i < q.length := by omega
          have h4 : (q ++ [e])[i] = q[i] := List.getElem_append_left hia
          rw [getD_listSet_ne _ _ hne, h4, hget i hia]
        · -- the written slot
          subst hieq
          rw [getD_listSet_self _ (Nat.mod_lt _ hpos)]
          simp [hsize]
  · -- full case: overwrite the oldest slot and advance start
    have hsizeC : r.size = r.buf.length := le_antisymm (hsize ▸ hle) (Nat.le_of_not_lt hfull)
    have hAdd : r.Add e =
        { r with buf := listSet r.buf r.start e,
                 start := (r.start + 1) % r.buf.length } := by
      simp [ringBuffer.Add, hC0, hfull]
    have hqC : q.length = r.buf.length := by omega
    have hq : qAdd r.buf.length q e = q.drop 1 ++ [e] := by simp [qAdd, hqC]
    rw [hAdd, hq]
    refine ⟨?_, ?_, ?_, ?_, ?_⟩
    · simpa [length_listSet] using hpos
    · simpa [length_listSet] using Nat.mod_lt (r.start + 1) hpos
    · simp [hsize]; omega
    · simp [length_listSet]; omega
    · apply List.ext_getElem
      · simp [length_SliceChrono, hsizeC]; omega
      · intro i h1 h2
        have hi : i < r.buf.length := by simpa [length_SliceChrono, hsizeC] using h1
        rw [SliceChrono_getElem _ i h1]
        simp only [length_listSet]
        have hidx : ((r.start + 1) % r.buf.length + i) % r.buf.length
            = (r.start + (1 + i)) % r.buf.length := by
          rw [Nat.mod_add_mod, Nat.add_assoc]
        rcases Nat.lt_or_ge i (r.buf.length - 1) with hilt | hige
        · -- untouched slot: old index i+1
          have hne : (r.start + (1 + i)) % r.buf.length ≠ r.start := by
            intro hcon
            have hcon' : (r.start + (1 + i)) % r.buf.length = (r.start + 0) % r.buf.length := by
              rw [hcon, Nat.add_zero, Nat.mod_eq_of_lt hstart]
            have := addModInj (by omega) hpos hcon'
            omega
          have hia : i < (q.drop 1).length := by simp; omega
          have hib : 1 + i < q.length := by omega
          have h4 : (q.drop 1 ++ [e])[i] = (q.drop 1)[i] := List.getElem_append_left hia
          have h5 : (q.drop 1)[i] = q[1 + i] := List.getElem_drop _
          rw [hidx, getD_listSet_ne _ _ hne, h4, h5, hget (1 + i) hib]
        · -- the overwritten slot start, now logically last
          have hieq : i = r.buf.length - 1 := by omega
          subst hieq
          have hone : r.start + (1 + (r.buf.length - 1)) = r.start + r.buf.length := by omega
          rw [hidx, hone, Nat.add_mod_right, Nat.mod_eq_of_lt hstart,
            getD_listSet_self _ hstart]
          have hlen : r.buf.length - 1 = (q.drop 1).length := by simp; omega
          exact (List.getElem_concat_length (q.drop 1) e (r.buf.length - 1) hlen h2).symm

lemma rbRep_addList {r : ringBuffer} {q : List LogEntry} (hr : rbRep r q)
    (es : List LogEntry) : rbRep (addList r es) (qAddList r.buf.length q es) := by
  induction es generalizing r q with
  | nil => exact hr
  | cons e es ih =>
    have h1 := ih (rbRep_Add hr e)
    rw [Add_buf_length] at h1
    exact h1

lemma newRingBuffer_buf_length (C : Nat) : (newRingBuffer C).buf.length = C := by
  simp [newRingBuffer]

lemma rbRep_new (C : Nat) (h : 0 < C) : rbRep (newRingBuffer C) [] := by
  refine ⟨by simpa [newRingBuffer_buf_length] using h, by simpa [newRingBuffer] using h,
    rfl, by simp [newRingBuffer_buf_length], ?_⟩
  simp [ringBuffer.SliceChrono, newRingBuffer]

lemma lastN_length (C : Nat) (l : List LogEntry) :
    (lastN C l).length = min l.length C := by
  simp [lastN]; omega

lemma qAddList_nil_eq (C : Nat) (h : 0 < C) (es : List LogEntry) :
    qAddList C [] es = lastN C es := by
  induction es using List.reverseRecOn with
  | nil => simp [qAddList, lastN]
  | append_singleton xs x ih =>
    have hfold : qAddList C [] (xs ++ [x]) = qAdd C (qAddList C [] xs) x := by
      simp [qAddList]
    rw [hfold, ih]
    have hqlen : (lastN C xs).length = min xs.length C := lastN_length C xs
    by_cases hlt : xs.length < C
    · have hxs : lastN C xs = xs := by
        simp [lastN, Nat.sub_eq_zero_of_le (Nat.le_of_lt hlt)]
      rw [hxs]
      have : xs.length + 1 - C = 0 := by omega
      simp [qAdd, lastN, hlt, this]
    · have hql : (lastN C xs).length = C := by omega
      have hq : qAdd C (lastN C xs) x = (lastN C xs).drop 1 ++ [x] := by
        simp [qAdd, hql]
      rw [hq]
      have hd : (lastN C xs).drop 1 = xs.drop (xs.length - C + 1) := by
        simp [lastN, List.drop_drop]
      have hsub : xs.length + 1 - C = xs.length - C + 1 := by omega
      have hle2 : xs.length - C + 1 ≤ xs.length := by omega
      rw [hd]
      simp only [lastN, List.length_append, List.length_singleton, hsub]
      rw [List.drop_append_of_le_length hle2]

lemma addList_window (C : Nat) (h : 0 < C) (es : List LogEntry) :
    (addList (newRingBuffer C) es).Len = min es.length C ∧
    (addList (newRingBuffer C) es).SliceChrono = lastN C es := by
  have hrep := rbRep_addList (rbRep_new C h) es
  rw [newRingBuffer_buf_length] at hrep
  obtain ⟨-, -, hsz, -, hsl⟩ := hrep
  rw [qAddList_nil_eq C h es] at hsz hsl
  exact ⟨by rw [ringBuffer.Len, hsz, lastN_length], hsl⟩

/-- C3: for every capacity C > 0 and every sequence of Add calls on a
fresh buffer of capacity C, Len afterwards equals min(N, C) and
SliceChrono returns exactly the last min(N, C) entries added, oldest to
newest. -/
theorem ringBuffer_window_C3 (C : Nat) (es : List LogEntry) (h : 0 < C) :
    (addList (newRingBuffer C) es).Len = min es.length C ∧
    (addList (newRingBuffer C) es).SliceChrono = lastN C es :=
  addList_window C h es

/-- Five concrete entries used to witness C3. -/
def wEntries : List LogEntry :=
  [⟨['1'], [], [], []⟩, ⟨['2'], [], [], []⟩, ⟨['3'], [], [], []⟩,
   ⟨['4'], [], [], []⟩, ⟨['5'], [], [], []⟩]

/-- C3 witness: a capacity-3 buffer receiving five entries keeps exactly
the last three, in order. -/
theorem ringBuffer_window_C3_witness :
    0 < 3 ∧ ((addList (newRingBuffer 3) wEntries).Len = min wEntries.length 3 ∧
      (addList (newRingBuffer 3) wEntries).SliceChrono = lastN 3 wEntries) :=
  ⟨by decide, ringBuffer_window_C3 3 wEntries (by decide)⟩

/-- C8: on a buffer constructed with capacity 0, every Add is a no-op
(the zero-length check returns before any index arithmetic is reached),
Len is always 0, and SliceChrono is always empty. -/
theorem ringBuffer_zero_capacity_C8 :
    (∀ e, (newRingBuffer 0).Add e = newRingBuffer 0) ∧
    (∀ es, addList (newRingBuffer 0) es = newRingBuffer 0 ∧
      (addList (newRingBuffer 0) es).Len = 0 ∧
      (addList (newRingBuffer 0) es).SliceChrono = []) := by
  have hAdd : ∀ e, (newRingBuffer 0).Add e = newRingBuffer 0 := by
    intro e
    simp [ringBuffer.Add, newRingBuffer]
  refine ⟨hAdd, fun es => ?_⟩
  have hall : addList (newRingBuffer 0) es = newRingBuffer 0 := by
    induction es with
    | nil => rfl
    | cons e es ih => simpa [addList, hAdd] using ih
  exact ⟨hall, by rw [hall]; rfl, by rw [hall]; rfl⟩

lemma addList_append (rb : ringBuffer) (a b : List LogEntry) :
    addList rb (a ++ b) = addList (addList rb a) b :=
  List.foldl_append _ _ a b

lemma scrapeStreamAux_noCancel (d : SantaDecisionType) (lines : List (List Char))
    (k : Nat) (rb : ringBuffer) :
    scrapeStreamAux noCancel d false k rb lines = (addList rb (linesToEntries d lines), none) := by
  induction lines generalizing k rb with
  | nil => rfl
  | cons line rest ih =>
    rw [scrapeStreamAux]
    simp only [noCancel, if_false, Bool.false_eq_true]
    cases hl : lineToEntry d line with
    | none => simpa [linesToEntries, List.filterMap_cons, hl, addList] using ih (k + 1) rb
    | some e => simpa [linesToEntries, List.filterMap_cons, hl, addList] using ih (k + 1) (rb.Add e)

lemma scrapeStream_noCancel (d : SantaDecisionType) (lines : List (List Char)) (rb : ringBuffer) :
    scrapeStream noCancel lines false d rb = (addList rb (linesToEntries d lines), none) :=
  scrapeStreamAux_noCancel d lines 0 rb

/-- Whether an archive can be opened and decompressed. -/
def ArchiveState.isGood : ArchiveState → Bool
  | .good _ => true
  | _ => false

/-- The decompressed lines of archive i, for good archives. -/
def archLinesAt (fs : SantaFS) (i : Nat) : List (List Char) :=
  match fs.archives.getD i .absent with
  | .good ls => ls
  | _ => []

lemma scrapeArchiveSeq_good (d : SantaDecisionType) (fs : SantaFS) (idxs : List Nat)
    (hgood : ∀ i ∈ idxs, (fs.archives.getD i .absent).isGood = true) (rb : ringBuffer) :
    scrapeArchiveSeq noCancel d fs idxs rb
      = .ok (addList rb (concatEntries d (idxs.map (archLinesAt fs)))) := by
  induction idxs generalizing rb with
  | nil => simp [scrapeArchiveSeq, concatEntries, addList]
  | cons i rest ih =>
    have hi := hgood i (List.mem_cons_self i rest)
    cases hg : fs.archives.getD i .absent with
    | absent => rw [hg] at hi; simp [ArchiveState.isGood] at hi
    | corrupt => rw [hg] at hi; simp [ArchiveState.isGood] at hi
    | good ls =>
      have hrest : ∀ j ∈ rest, (fs.archives.getD j .absent).isGood = true :=
        fun j hj => hgood j (List.mem_cons_of_mem i hj)
      have hstep := scrapeStream_noCancel d ls rb
      have hlines : archLinesAt fs i = ls := by simp only [archLinesAt, hg]
      rw [scrapeArchiveSeq, hg]
      simp only [hstep]
      rw [ih hrest]
      simp [List.map_cons, concatEntries, hlines, addList_append]

lemma scrapeArchiveSeq_corrupt (ctx : Nat → Bool) (d : SantaDecisionType) (fs : SantaFS)
    (idxs : List Nat) (i : Nat) (hi : i ∈ idxs)
    (hc : fs.archives.getD i .absent = .corrupt) (rb : ringBuffer) :
    ∃ e, scrapeArchiveSeq ctx d fs idxs rb = .error e := by
  induction idxs generalizing rb with
  | nil => cases hi
  | cons j rest ih =>
    cases hg : fs.archives.getD j .absent with
    | absent => exact ⟨.archiveOpen j, by simp only [scrapeArchiveSeq, hg]⟩
    | corrupt => exact ⟨.archiveOpen j, by simp only [scrapeArchiveSeq, hg]⟩
    | good ls =>
      have hij : i ∈ rest := by
        rcases List.mem_cons.mp hi with hq | hq
        · rw [hq, hg] at hc; cases hc
        · exact hq
      rcases hres : scrapeStream ctx ls false d rb with ⟨rb', err⟩
      cases err with
      | none =>
        obtain ⟨e, he⟩ := ih hij rb'
        exact ⟨e, by rw [scrapeArchiveSeq, hg]; simp only [hres]; exact he⟩
      | some se =>
        cases se with
        | cancelled => exact ⟨.cancelled, by rw [scrapeArchiveSeq, hg]; simp only [hres]⟩
        | ioErr => exact ⟨.ioErr, by rw [scrapeArchiveSeq, hg]; simp only [hres]⟩

lemma contiguousCount_goodjunk (ls : List (List (List Char))) (junk : List ArchiveState) :
    contiguousCount (ls.map ArchiveState.good ++ ArchiveState.absent :: junk) = ls.length := by
  induction ls with
  | nil => simp [contiguousCount]
  | cons x xs ih => simp [contiguousCount, ih]

lemma getD_goodjunk (ls : List (List (List Char))) (junk : List ArchiveState)
    {i : Nat} (h : i < ls.length) :
    (ls.map ArchiveState.good ++ ArchiveState.absent :: junk).getD i .absent
      = .good (ls.getD i []) := by
  induction ls generalizing i with
  | nil => simp at h
  | cons x xs ih =>
    cases i with
    | zero => rfl
    | succ m => simpa using ih (Nat.lt_of_succ_lt_succ h)

lemma map_getD_range (ls : List (List (List Char))) :
    (List.range ls.length).map (fun i => ls.getD i []) = ls := by
  induction ls with
  | nil => simp
  | cons x xs ih =>
    rw [List.length_cons, List.range_succ_eq_map]
    simp only [List.map_cons, List.map_map]
    refine congrArg (x :: ·) ?_
    rw [List.map_congr_left (fun i _ => ?_), ih]
    simp [Function.comp, List.getD]

lemma concatEntries_append (d : SantaDecisionType) (a b : List (List (List Char))) :
    concatEntries d (a ++ b) = concatEntries d a ++ concatEntries d b := by
  induction a with
  | nil => simp [concatEntries]
  | cons s rest ih => simp [concatEntries, ih]

/-- C4: the orchestrator probes archives 0,1,2,... stopping at the first
missing index (anything beyond a gap is ignored), scrapes the discovered
archives from the highest index down to 0, then the current log, so the
result is the capacity-window of the entries of all segments concatenated
oldest to newest: archive content precedes current-log content. -/
theorem scrapeSantaLog_order_C4 (d : SantaDecisionType)
    (archLines : List (List (List Char))) (junk : List ArchiveState)
    (cur : List (List Char)) :
    scrapeSantaLogFromBase noCancel d
        ⟨archLines.map .good ++ .absent :: junk, some cur⟩
      = .ok (lastN maxEntries (concatEntries d (archLines.reverse ++ [cur]))) := by
  set fs : SantaFS := ⟨archLines.map .good ++ .absent :: junk, some cur⟩ with hfs
  have hcnt : contiguousCount fs.archives = archLines.length := contiguousCount_goodjunk _ _
  have hgood : ∀ i ∈ (List.range (contiguousCount fs.archives)).reverse,
      (fs.archives.getD i .absent).isGood = true := by
    intro i hi
    have : i < archLines.length := by
      rw [← hcnt]; exact List.mem_range.mp (List.mem_reverse.mp hi)
    rw [hfs]
    simp only [getD_goodjunk archLines junk this, ArchiveState.isGood]
  have harch := scrapeArchiveSeq_good d fs (List.range (contiguousCount fs.archives)).reverse
    hgood (newRingBuffer maxEntries)
  have hmapeq : (List.range (contiguousCount fs.archives)).reverse.map (archLinesAt fs)
      = archLines.reverse := by
    have h1 : ∀ i ∈ (List.range (contiguousCount fs.archives)).reverse,
        archLinesAt fs i = archLines.getD i [] := by
      intro i hi
      have hlt : i < archLines.length := by
        rw [← hcnt]; exact List.mem_range.mp (List.mem_reverse.mp hi)
      simp only [archLinesAt, hfs, getD_goodjunk archLines junk hlt]
    rw [List.map_congr_left h1, hcnt, List.map_reverse, map_getD_range]
  rw [hmapeq] at harch
  have hcur := scrapeStream_noCancel d cur
    (addList (newRingBuffer maxEntries) (concatEntries d archLines.reverse))
  rw [scrapeSantaLogFromBase]
  simp only [harch, hcur]
  rw [← addList_append]
  have hfinal := (addList_window maxEntries (by decide)
    (concatEntries d archLines.reverse ++ linesToEntries d cur)).2
  rw [hfinal, concatEntries_append]
  simp [concatEntries]

/-- C5: if any archive inside the discovered contiguous prefix is corrupt
(its open or gzip decompression fails), the whole scrape fails with an
error (the Except.error carries no entry sequence); and if every
discovered archive is good but the current log cannot be opened, the
scrape fails with the current-log open error. -/
theorem scrapeSantaLog_errors_C5 :
    (∀ (ctx : Nat → Bool) (d : SantaDecisionType) (fs : SantaFS) (i : Nat),
        i < contiguousCount fs.archives →
        fs.archives.getD i .absent = .corrupt →
        ∃ e, scrapeSantaLogFromBase ctx d fs = .error e) ∧
    (∀ (d : SantaDecisionType) (archLines : List (List (List Char)))
        (junk : List ArchiveState),
        scrapeSantaLogFromBase noCancel d ⟨archLines.map .good ++ .absent :: junk, none⟩
          = .error .currentOpen) := by
  constructor
  · intro ctx d fs i hi hc
    have hmem : i ∈ (List.range (contiguousCount fs.archives)).reverse :=
      List.mem_reverse.mpr (List.mem_range.mpr hi)
    obtain ⟨e, he⟩ := scrapeArchiveSeq_corrupt ctx d fs _ i hmem hc (newRingBuffer maxEntries)
    exact ⟨e, by rw [scrapeSantaLogFromBase]; simp only [he]⟩
  · intro d archLines junk
    set fs : SantaFS := ⟨archLines.map .good ++ .absent :: junk, none⟩ with hfs
    have hgood : ∀ i ∈ (List.range (contiguousCount fs.archives)).reverse,
        (fs.archives.getD i .absent).isGood = true := by
      intro i hi
      have hcnt : contiguousCount fs.archives = archLines.length := contiguousCount_goodjunk _ _
      have : i < archLines.length := by
        rw [← hcnt]; exact List.mem_range.mp (List.mem_reverse.mp hi)
      rw [hfs]
      simp only [getD_goodjunk archLines junk this, ArchiveState.isGood]
    have harch := scrapeArchiveSeq_good d fs (List.range (contiguousCount fs.archives)).reverse
      hgood (newRingBuffer maxEntries)
    rw [scrapeSantaLogFromBase]
    simp only [harch]

/-- C5 witness: a file system whose only archive is corrupt makes the
scrape fail, and a file system with no archives and an unopenable current
log fails with the current-log error. -/
theorem scrapeSantaLog_errors_C5_witness :
    (∃ e, scrapeSantaLogFromBase noCancel .allowed ⟨[.corrupt], some []⟩ = .error e) ∧
    scrapeSantaLogFromBase noCancel .denied ⟨[], none⟩ = .error .currentOpen := by
  constructor
  · exact scrapeSantaLog_errors_C5.1 noCancel .allowed ⟨[.corrupt], some []⟩ 0
      (by decide) (by decide)
  · exact scrapeSantaLog_errors_C5.2 .denied [] []

/-- C6 counterexample: with the cancellation signal armed from the start
but an empty line source, scrapeStream returns the empty success outcome,
not the cancelled outcome, contradicting the claim as stated. -/
theorem scrapeStream_cancel_C6_cex :
    (scrapeStream (fun _ => true) [] false .allowed (newRingBuffer 3)).2 = none ∧
    (none : Option StreamErr) ≠ some .cancelled := by
  exact ⟨rfl, by decide⟩

/-- C6 amended: if the cancellation signal is armed at the first poll and
at least one line is available from the source, scrapeStream returns the
cancelled outcome — an outcome distinct from ordinary read errors and
from success — and the ring buffer is exactly the one passed in: the line
already read is not processed, and no in-progress results accompany the
cancelled outcome. -/
theorem scrapeStream_cancelled_C6 (ctx : Nat → Bool) (line : List Char)
    (rest : List (List Char)) (sErr : Bool) (d : SantaDecisionType) (rb : ringBuffer)
    (h : ctx 0 = true) :
    scrapeStream ctx (line :: rest) sErr d rb = (rb, some .cancelled) := by
  simp [scrapeStream, scrapeStreamAux, h]

/-- C6 witness: an armed signal and a one-line source produce the
cancelled outcome. -/
theorem scrapeStream_cancelled_C6_witness :
    scrapeStream (fun _ => true) [String.toList "x"] false .allowed (newRingBuffer 2)
      = (newRingBuffer 2, some .cancelled) :=
  scrapeStream_cancelled_C6 (fun _ => true) (String.toList "x") [] false .allowed
    (newRingBuffer 2) rfl

/-- C1 counterexample: a corrupt archive makes the orchestrator fail, yet
generateSantaAllowed still returns zero rows and a nil error — there is
no query-level error, contradicting the claim as stated. -/
theorem generate_archive_error_C1_cex :
    scrapeSantaLogFromBase noCancel .allowed ⟨[.corrupt], some []⟩
        = .error (.archiveOpen 0) ∧
    generateSantaAllowed noCancel ⟨[.corrupt], some []⟩ = ([], none) := by
  exact ⟨rfl, rfl⟩

/-- C1 amended: the table callbacks return zero rows and no error
whenever the scrape fails, both when the current log is absent and when a
rotated archive is corrupt: every scrape error is masked at the table
layer. -/
theorem generate_masks_scrape_errors_C1 (ctx : Nat → Bool) (fs : SantaFS) :
    (∀ e, scrapeSantaLogFromBase ctx .allowed fs = .error e →
      generateSantaAllowed ctx fs = ([], none)) ∧
    (∀ e, scrapeSantaLogFromBase ctx .denied fs = .error e →
      generateSantaDenied ctx fs = ([], none)) := by
  constructor
  · intro e he
    simp [generateSantaAllowed, he]
  · intro e he
    simp [generateSantaDenied, he]

/-- C1 witness: with no archives and an absent current log, the allowed
table yields zero rows and no error. -/
theorem generate_masks_scrape_errors_C1_witness :
    generateSantaAllowed noCancel ⟨[], none⟩ = ([], none) :=
  (generate_masks_scrape_errors_C1 noCancel ⟨[], none⟩).1 .currentOpen rfl

lemma dropRightW_cons (p : Char → Bool) (c : Char) (cs : List Char) :
    dropRightW p (c :: cs) =
      if dropRightW p cs = [] then (if p c then [] else [c])
      else c :: dropRightW p cs := by
  cases h : dropRightW p cs with
  | nil => simp [dropRightW, h]
  | cons r rs => simp [dropRightW, h]

lemma dropRightW_eq_nil_iff (p : Char → Bool) (l : List Char) :
    dropRightW p l = [] ↔ ∀ c ∈ l, p c = true := by
  induction l with
  | nil => simp [dropRightW]
  | cons c cs ih =>
    rw [dropRightW_cons]
    by_cases h : dropRightW p cs = []
    · have hall := ih.mp h
      by_cases hpc : p c
      · simp only [h, if_pos rfl, hpc, ite_true]
        simp only [List.mem_cons, true_iff]
        intro x hx
        rcases hx with hx | hx
        · rw [hx]; exact hpc
        · exact hall x hx
      · simp [h, hpc, hall]
    · simp only [if_neg h]
      constructor
      · intro hc; simp at hc
      · intro hall
        exact absurd (ih.mpr (fun x hx => hall x (List.mem_cons_of_mem c hx))) h

lemma dropWhile_idem (p : Char → Bool) (l : List Char) :
    (l.dropWhile p).dropWhile p = l.dropWhile p := by
  induction l with
  | nil => rfl
  | cons c cs ih =>
    by_cases h : p c
    · simp [List.dropWhile_cons, h, ih]
    · simp [List.dropWhile_cons, h]

lemma dropRightW_idem (p : Char → Bool) (l : List Char) :
    dropRightW p (dropRightW p l) = dropRightW p l := by
  induction l with
  | nil => rfl
  | cons c cs ih =>
    rw [dropRightW_cons]
    by_cases h : dropRightW p cs = []
    · by_cases hpc : p c
      · simp [h, hpc, dropRightW]
      · simp [h, hpc, dropRightW_cons, dropRightW]
    · simp only [if_neg h]
      rw [dropRightW_cons, ih, if_neg h]

lemma dropWhile_dropRightW_comm (p : Char → Bool) (l : List Char) :
    (dropRightW p l).dropWhile p = dropRightW p (l.dropWhile p) := by
  induction l with
  | nil => rfl
  | cons c cs ih =>
    rw [dropRightW_cons]
    by_cases hpc : p c
    · by_cases h : dropRightW p cs = []
      · have hall := (dropRightW_eq_nil_iff p cs).mp h
        have hnil : cs.dropWhile p = [] := List.dropWhile_eq_nil_iff.mpr (by
          intro x hx; simpa using hall x hx)
        simp [h, hpc, List.dropWhile_cons, hnil, dropRightW]
      · rw [if_neg h]
        simp only [List.dropWhile_cons, hpc, ite_true]
        exact ih
    · by_cases h : dropRightW p cs = []
      · simp [h, hpc, List.dropWhile_cons, dropRightW_cons]
      · simp [h, hpc, List.dropWhile_cons, dropRightW_cons]

lemma mem_dropWhile_iff (p : Char → Bool) {c : Char} (hc : p c = false) (l : List Char) :
    c ∈ l.dropWhile p ↔ c ∈ l := by
  induction l with
  | nil => simp
  | cons a as ih =>
    by_cases hpa : p a
    · rw [List.dropWhile_cons, if_pos hpa, ih]
      constructor
      · exact fun h => List.mem_cons_of_mem a h
      · intro h
        rcases List.mem_cons.mp h with h | h
        · subst h; rw [hpa] at hc; cases hc
        · exact h
    · rw [List.dropWhile_cons, if_neg hpa]

lemma mem_dropRightW_iff (p : Char → Bool) {c : Char} (hc : p c = false) (l : List Char) :
    c ∈ dropRightW p l ↔ c ∈ l := by
  induction l with
  | nil => simp [dropRightW]
  | cons a as ih =>
    rw [dropRightW_cons]
    by_cases h : dropRightW p as = []
    · have hall := (dropRightW_eq_nil_iff p as).mp h
      have hnotin : c ∉ as := by
        intro hmem
        rw [hall c hmem] at hc; cases hc
      by_cases hpa : p a
      · have hne : c ≠ a := by intro he; subst he; rw [hpa] at hc; cases hc
        simp [h, hpa, hne, hnotin]
      · simp [h, hpa, hnotin]
    · simp [h, ih]

lemma splitFirst_eq_none_iff (c : Char) (l : List Char) :
    splitFirst c l = none ↔ c ∉ l := by
  induction l with
  | nil => simp [splitFirst]
  | cons a as ih =>
    simp only [splitFirst]
    by_cases ha : a = c
    · subst ha; simp
    · rw [if_neg ha]
      simp only [Option.map_eq_none', ih, List.mem_cons]
      constructor
      · intro h hmem
        rcases hmem with he | hmem
        · exact ha he.symm
        · exact h hmem
      · intro h hmem
        exact h (Or.inr hmem)

lemma splitFirst_dropWhile (c : Char) (p : Char → Bool) (hc : p c = false)
    (l : List Char) :
    splitFirst c (l.dropWhile p)
      = (splitFirst c l).map (fun q => (q.1.dropWhile p, q.2)) := by
  induction l with
  | nil => rfl
  | cons a as ih =>
    by_cases hpa : p a
    · have hne : ¬ a = c := by intro he; subst he; simp [hc] at hpa
      rw [List.dropWhile_cons, if_pos hpa, ih]
      simp only [splitFirst, if_neg hne]
      cases splitFirst c as with
      | none => rfl
      | some q => simp [List.dropWhile_cons, hpa]
    · rw [List.dropWhile_cons, if_neg hpa]
      by_cases ha : a = c
      · subst ha
        simp [splitFirst]
      · simp [splitFirst, ha, List.dropWhile_cons, hpa]
        cases splitFirst c as with
        | none => rfl
        | some q => simp [List.dropWhile_cons, hpa]

lemma splitFirst_dropRightW (c : Char) (p : Char → Bool) (hc : p c = false)
    (l : List Char) :
    splitFirst c (dropRightW p l)
      = (splitFirst c l).map (fun q => (q.1, dropRightW p q.2)) := by
  induction l with
  | nil => rfl
  | cons a as ih =>
    rw [dropRightW_cons]
    by_cases h : dropRightW p as = []
    · have hall := (dropRightW_eq_nil_iff p as).mp h
      have hnone : splitFirst c as = none := by
        rw [splitFirst_eq_none_iff]
        intro hmem
        rw [hall c hmem] at hc; cases hc
      by_cases hpa : p a
      · have hne : ¬ a = c := by intro he; subst he; simp [hc] at hpa
        simp [h, hpa, splitFirst, hne, hnone]
      · by_cases ha : a = c
        · subst ha
          simp [h, hpa, splitFirst, hnone]
        · simp [h, hpa, splitFirst, ha, hnone]
    · rw [if_neg h]
      by_cases ha : a = c
      · subst ha
        simp [splitFirst, h]
      · simp [splitFirst, ha, ih]
        cases splitFirst c as with
        | none => rfl
        | some q => rfl

lemma trimSpaceL_eq_nil (l : List Char) (h : trimSpaceL l = []) :
    ∀ c ∈ l, isSpaceChar c = true := by
  intro c hc
  have hdrop := (dropRightW_eq_nil_iff isSpaceChar (l.dropWhile isSpaceChar)).mp h
  rw [← List.takeWhile_append_dropWhile (p := isSpaceChar) (l := l)] at hc
  rcases List.mem_append.mp hc with hm | hm
  · exact List.mem_takeWhile_imp hm
  · exact hdrop c hm

lemma splitFirst_trimSpaceL (c : Char) (hcs : isSpaceChar c = false) (l : List Char) :
    splitFirst c (trimSpaceL l)
      = (splitFirst c l).map
          (fun q => (q.1.dropWhile isSpaceChar, dropRightW isSpaceChar q.2)) := by
  rw [trimSpaceL, splitFirst_dropRightW c _ hcs, splitFirst_dropWhile c _ hcs]
  cases splitFirst c l <;> rfl

lemma trimSpaceL_dropWhile (l : List Char) :
    trimSpaceL (l.dropWhile isSpaceChar) = trimSpaceL l := by
  simp only [trimSpaceL, dropWhile_idem]

lemma trimSpaceL_dropRightW (l : List Char) :
    trimSpaceL (dropRightW isSpaceChar l) = trimSpaceL l := by
  simp only [trimSpaceL, ← dropWhile_dropRightW_comm, dropRightW_idem]

lemma insertSeg_eq_amended (m : SMap) (seg : List Char) :
    insertSeg m seg = insertSegAmended m seg := by
  have hceq : isSpaceChar '=' = false := by decide
  unfold insertSeg insertSegAmended
  by_cases hnil : trimSpaceL seg = []
  · have hall := trimSpaceL_eq_nil seg hnil
    have hnone : splitFirst '=' seg = none := by
      rw [splitFirst_eq_none_iff]
      intro hmem
      have hsp := hall _ hmem
      rw [hceq] at hsp
      cases hsp
    simp [hnil, hnone]
  · have hne : (trimSpaceL seg).isEmpty = false := by
      simpa [List.isEmpty_iff] using hnil
    have hsp := splitFirst_trimSpaceL '=' hceq seg
    cases h0 : splitFirst '=' seg with
    | none =>
      have h1 : splitFirst '=' (trimSpaceL seg) = none := by rw [hsp, h0]; rfl
      simp [hne, h1]
    | some q =>
      obtain ⟨k0, v0⟩ := q
      have h1 : splitFirst '=' (trimSpaceL seg)
          = some (k0.dropWhile isSpaceChar, dropRightW isSpaceChar v0) := by
        rw [hsp, h0]; rfl
      simp only [hne, Bool.false_eq_true, if_false, h1, h0]
      rw [trimSpaceL_dropWhile, trimSpaceL_dropRightW]

/-- C2 counterexample: on the concrete line with value two layers of
mismatched-order quotes around x, the code strips all surrounding quote
characters while the claim as worded strips exactly one matching layer,
so the resulting maps differ at key a. -/
theorem extractValues_quote_C2_cex :
    extractValues (String.toList "[t] santad: a=" ++ [dquote, squote, 'x', squote, dquote])
        (String.toList "a")
      ≠ extractValuesClaim (String.toList "[t] santad: a=" ++ [dquote, squote, 'x', squote, dquote])
        (String.toList "a") := by
  decide

/-- C2 amended: for every input line, extractValues splits each
pipe-separated segment after the marker on the first equals sign,
ignores segments without one, lower-cases and whitespace-trims keys,
whitespace-trims values and then strips all leading and trailing quote
characters (double or single, matching not required), and drops pairs
whose key or value is empty: pointwise equal to the amended reference
extraction. -/
theorem extractValues_segments_C2 :
    ∀ line : List Char, extractValues line = extractValuesAmended line := by
  intro line
  have hfun : insertSeg = insertSegAmended :=
    funext fun m => funext fun seg => insertSeg_eq_amended m seg
  unfold extractValues extractValuesAmended
  rw [hfun]

lemma afterMarker_none_iff (l : List Char) :
    afterMarker l = none ↔ containsSub markerL l = false := by
  induction l with
  | nil => simp [afterMarker, containsSub, markerL, isPrefixL]
  | cons c cs ih =>
    rw [afterMarker, containsSub]
    by_cases h : isPrefixL markerL (c :: cs)
    · simp [h]
    · simp only [h, Bool.false_eq_true, if_false, Bool.false_or]
      simpa using ih

/-- C9: extractValues is total by construction (it is a plain function of
the line, with no error channel, mirroring the Go code whose only
partial operations are the in-bounds slice after strings.Index); on the
empty string it returns the empty map, and on any line that does not
contain the marker it returns only what the timestamp step extracted. -/
theorem extractValues_total_C9 :
    (∀ k, extractValues [] k = none) ∧
    (∀ line, containsSub markerL line = false → extractValues line = tsOnlyMap line) := by
  constructor
  · intro k; rfl
  · intro line h
    have hnone : afterMarker line = none := (afterMarker_none_iff line).mpr h
    unfold extractValues
    rw [hnone]

/-- C9 witness: a line with a timestamp but no marker extracts to the
timestamp-only map. -/
theorem extractValues_total_C9_witness :
    extractValues (String.toList "[2024] hello") = tsOnlyMap (String.toList "[2024] hello") :=
  extractValues_total_C9.2 (String.toList "[2024] hello") (by decide)

lemma findTimestamp_ne_nil {l t : List Char} (h : findTimestamp l = some t) : t ≠ [] := by
  induction l with
  | nil => cases h
  | cons c cs ih =>
    rw [findTimestamp] at h
    by_cases hc : c = '['
    · rw [if_pos hc] at h
      cases hbr : bracketRun cs with
      | none => simp only [hbr] at h; exact ih h
      | some run =>
        simp only [hbr] at h
        by_cases hrun : run.isEmpty
        · rw [if_pos hrun] at h; exact ih h
        · rw [if_neg hrun] at h
          cases h
          simpa [List.isEmpty_iff] using hrun
    · rw [if_neg hc] at h; exact ih h

lemma tsOnlyMap_values_ne_nil (line : List Char) :
    ∀ k v, tsOnlyMap line k = some v → v ≠ [] := by
  intro k v h
  unfold tsOnlyMap at h
  cases hts : findTimestamp line with
  | none => simp only [hts, mapEmpty] at h; cases h
  | some ts =>
    simp only [hts, mapInsert] at h
    by_cases hk : k = tsKey
    · rw [if_pos hk] at h
      cases h
      exact findTimestamp_ne_nil hts
    · rw [if_neg hk] at h
      simp only [mapEmpty] at h
      cases h

lemma insertSeg_values_ne_nil (m : SMap) (seg : List Char)
    (hm : ∀ k v, m k = some v → v ≠ []) :
    ∀ k v, insertSeg m seg k = some v → v ≠ [] := by
  intro k v h
  simp only [insertSeg] at h
  by_cases hnil : (trimSpaceL seg).isEmpty
  · rw [if_pos hnil] at h; exact hm k v h
  · rw [if_neg hnil] at h
    cases hsp : splitFirst '=' (trimSpaceL seg) with
    | none => simp only [hsp] at h; exact hm k v h
    | some q =>
      obtain ⟨k0, v0⟩ := q
      simp only [hsp] at h
      by_cases hcond : lowerL (trimSpaceL k0) ≠ [] ∧ trimQuotesL (trimSpaceL v0) ≠ []
      · rw [if_pos hcond] at h
        simp only [mapInsert] at h
        by_cases hk : k = lowerL (trimSpaceL k0)
        · rw [if_pos hk] at h
          cases h
          exact hcond.2
        · rw [if_neg hk] at h; exact hm k v h
      · rw [if_neg hcond] at h; exact hm k v h

lemma foldl_insertSeg_values_ne_nil (segs : List (List Char)) (m : SMap)
    (hm : ∀ k v, m k = some v → v ≠ []) :
    ∀ k v, (segs.foldl insertSeg m) k = some v → v ≠ [] := by
  induction segs generalizing m with
  | nil => exact hm
  | cons s rest ih => exact ih (insertSeg m s) (insertSeg_values_ne_nil m s hm)

/-- C10: every value stored in the map returned by extractValues is a
non-empty string (the timestamp capture needs at least one character and
empty trimmed values are dropped), so the Stream Scraper reading
values[timestamp] as the empty string is exactly the absence test for
that key. -/
theorem extractValues_nonempty_C10 :
    (∀ line k v, extractValues line k = some v → v ≠ []) ∧
    (∀ line, mapGet (extractValues line) tsKey = [] ↔ extractValues line tsKey = none) := by
  have h1 : ∀ line k v, extractValues line k = some v → v ≠ [] := by
    intro line k v h
    unfold extractValues at h
    cases ham : afterMarker line with
    | none =>
      rw [ham] at h
      exact tsOnlyMap_values_ne_nil line k v h
    | some rest =>
      rw [ham] at h
      exact foldl_insertSeg_values_ne_nil _ _ (tsOnlyMap_values_ne_nil line) k v h
  refine ⟨h1, fun line => ?_⟩
  unfold mapGet
  cases hts : extractValues line tsKey with
  | none => simp
  | some v =>
    have hv := h1 line tsKey v hts
    simp [hv]

/-- C10 witness: on a concrete full line the stored reason value CERT is
non-empty, obtained through the main theorem. -/
theorem extractValues_nonempty_C10_witness :
    String.toList "CERT" ≠ ([] : List Char) :=
  extractValues_nonempty_C10.1
    (String.toList "[t] santad: decision=ALLOW|reason=CERT|sha256=abc|path=/usr/bin/x")
    reasonKey (String.toList "CERT") (by decide)

lemma markerL_eq : markerL = ['s', 'a', 'n', 't', 'a', 'd', ':', ' '] := by decide

lemma bracketRun_append {T : List Char} (rest : List Char) (h : ']' ∉ T) :
    bracketRun (T ++ ']' :: rest) = some T := by
  induction T with
  | nil => simp [bracketRun]
  | cons c cs ih =>
    have hc : ¬ c = ']' := fun he => h (he ▸ List.mem_cons_self c cs)
    rw [List.cons_append, bracketRun, if_neg hc,
      ih (fun hm => h (List.mem_cons_of_mem c hm))]
    rfl

lemma isPrefixL_self_append (n x : List Char) : isPrefixL n (n ++ x) = true := by
  induction n with
  | nil => rfl
  | cons a as ih => simp [isPrefixL, ih]

lemma isPrefixL_bracket_length {n x z : List Char} (hn : ∀ c ∈ n, c ≠ ']')
    (h : isPrefixL n (x ++ ']' :: z) = true) : n.length ≤ x.length := by
  induction n generalizing x with
  | nil => simp
  | cons a as ih =>
    cases x with
    | nil =>
      rw [List.nil_append, isPrefixL] at h
      simp only [Bool.and_eq_true, decide_eq_true_eq] at h
      exact absurd h.1 (hn a (List.mem_cons_self a as))
    | cons b x' =>
      rw [List.cons_append, isPrefixL] at h
      simp only [Bool.and_eq_true, decide_eq_true_eq] at h
      have := ih (fun c hc => hn c (List.mem_cons_of_mem a hc)) h.2
      simpa using Nat.succ_le_succ this

lemma isPrefixL_append_of_le {n x : List Char} (z : List Char) (h : n.length ≤ x.length) :
    isPrefixL n (x ++ z) = isPrefixL n x := by
  induction n generalizing x with
  | nil => rfl
  | cons a as ih =>
    cases x with
    | nil => simp at h
    | cons b x' =>
      rw [List.cons_append, isPrefixL, isPrefixL, ih (by simpa using h)]

lemma not_prefix_marker {x : List Char} (z : List Char)
    (hx : isPrefixL markerL (x ++ [']', ' ']) = false) :
    isPrefixL markerL (x ++ ']' :: ' ' :: z) = false := by
  by_contra hcon
  rw [Bool.not_eq_false] at hcon
  have hmem : ∀ c ∈ markerL, c ≠ ']' := by decide
  have hlen := isPrefixL_bracket_length hmem hcon
  rw [isPrefixL_append_of_le (']' :: ' ' :: z) hlen] at hcon
  rw [isPrefixL_append_of_le ([']', ' ']) hlen, hcon] at hx
  cases hx

lemma afterMarker_glue (u fields : List Char)
    (hw : containsSub markerL (u ++ [']', ' ']) = false) :
    afterMarker (u ++ ']' :: ' ' :: (markerL ++ fields)) = some fields := by
  induction u with
  | nil =>
    rw [List.nil_append, afterMarker]
    have h1 : isPrefixL markerL (']' :: ' ' :: (markerL ++ fields)) = false := by
      rw [markerL_eq]; simp [isPrefixL]
    simp only [h1, Bool.false_eq_true, if_false]
    rw [afterMarker]
    have h2 : isPrefixL markerL (' ' :: (markerL ++ fields)) = false := by
      rw [markerL_eq]; simp [isPrefixL]
    simp only [h2, Bool.false_eq_true, if_false]
    have h3 : markerL ++ fields = 's' :: 'a' :: 'n' :: 't' :: 'a' :: 'd' :: ':' :: ' ' :: fields := by
      rw [markerL_eq]; rfl
    rw [h3, afterMarker]
    have h4 : isPrefixL markerL ('s' :: 'a' :: 'n' :: 't' :: 'a' :: 'd' :: ':' :: ' ' :: fields)
        = true := by
      rw [markerL_eq]; simp [isPrefixL]
    simp only [h4, if_true]
    rw [markerL_eq]
    rfl
  | cons c u' ih =>
    have hw' := hw
    rw [List.cons_append, containsSub] at hw'
    rw [Bool.or_eq_false_iff] at hw'
    obtain ⟨hpf, hrest⟩ := hw'
    rw [List.cons_append, afterMarker]
    have hnp : isPrefixL markerL (c :: (u' ++ ']' :: ' ' :: (markerL ++ fields))) = false := by
      have hshape : c :: (u' ++ ']' :: ' ' :: (markerL ++ fields))
          = (c :: u') ++ ']' :: ' ' :: (markerL ++ fields) := by simp
      rw [hshape]
      exact not_prefix_marker (markerL ++ fields) (by simpa using hpf)
    simp only [hnp, Bool.false_eq_true, if_false]
    exact ih hrest

lemma findTimestamp_head {T : List Char} (rest : List Char) (hne : T ≠ [])
    (hb : ']' ∉ T) :
    findTimestamp ('[' :: (T ++ ']' :: rest)) = some T := by
  rw [findTimestamp, if_pos rfl, bracketRun_append rest hb]
  simp [List.isEmpty_iff, hne]

lemma splitOnChar_append_pipe {x : List Char} (rest : List Char) (hx : '|' ∉ x) :
    splitOnChar '|' (x ++ '|' :: rest) = x :: splitOnChar '|' rest := by
  induction x with
  | nil => simp [splitOnChar]
  | cons c x' ih =>
    have hc : ¬ c = '|' := fun he => hx (he ▸ List.mem_cons_self c x')
    rw [List.cons_append, splitOnChar, if_neg hc,
      ih (fun hm => hx (List.mem_cons_of_mem c hm))]

lemma splitOnChar_no_pipe {x : List Char} (hx : '|' ∉ x) :
    splitOnChar '|' x = [x] := by
  induction x with
  | nil => rfl
  | cons c x' ih =>
    have hc : ¬ c = '|' := fun he => hx (he ▸ List.mem_cons_self c x')
    rw [splitOnChar, if_neg hc, ih (fun hm => hx (List.mem_cons_of_mem c hm))]

lemma splitFirst_key {c : Char} {x : List Char} (y : List Char) (hx : c ∉ x) :
    splitFirst c (x ++ c :: y) = some (x, y) := by
  induction x with
  | nil => simp [splitFirst]
  | cons b x' ih =>
    have hb : ¬ b = c := fun he => hx (he ▸ List.mem_cons_self b x')
    rw [List.cons_append, splitFirst, if_neg hb,
      ih (fun hm => hx (List.mem_cons_of_mem b hm))]
    rfl

lemma dropWhile_eq_self_of_head (p : Char → Bool) (l : List Char)
    (h : ∀ c, l.head? = some c → p c = false) : l.dropWhile p = l := by
  cases l with
  | nil => rfl
  | cons c cs =>
    rw [List.dropWhile_cons, if_neg (by simp [h c rfl])]

lemma dropRightW_eq_self_of_getLast (p : Char → Bool) (l : List Char)
    (h : ∀ c, l.getLast? = some c → p c = false) : dropRightW p l = l := by
  induction l with
  | nil => rfl
  | cons c cs ih =>
    rw [dropRightW_cons]
    cases cs with
    | nil =>
      have hpc := h c rfl
      simp [dropRightW, hpc]
    | cons d ds =>
      have hh : ∀ x, (d :: ds).getLast? = some x → p x = false := by
        intro x hx
        exact h x (by rw [List.getLast?_cons_cons]; exact hx)
      rw [ih hh]
      simp

/-- Whether the first and last characters of a string (when present) both
fail the predicate p: the condition under which trimming with p leaves
the string unchanged. -/
def edgeOK (p : Char → Bool) (X : List Char) : Bool :=
  (match X.head? with | some c => !(p c) | none => true) &&
  (match X.getLast? with | some c => !(p c) | none => true)

lemma edgeOK_head {p : Char → Bool} {X : List Char} (h : edgeOK p X = true) :
    ∀ c, X.head? = some c → p c = false := by
  intro c hc
  simp only [edgeOK, hc, Bool.and_eq_true] at h
  simpa using h.1

lemma edgeOK_last {p : Char → Bool} {X : List Char} (h : edgeOK p X = true) :
    ∀ c, X.getLast? = some c → p c = false := by
  intro c hc
  simp only [edgeOK, hc, Bool.and_eq_true] at h
  simpa using h.2

lemma insertSeg_kv (m : SMap) (key X : List Char)
    (hk1 : trimSpaceL key = key) (hk2 : lowerL key = key) (hk3 : '=' ∉ key)
    (hk4 : key ≠ []) (hkh : edgeOK isSpaceChar key = true)
    (hXne : X ≠ [])
    (hXs : edgeOK isSpaceChar X = true) (hXq : edgeOK isQuoteChar X = true) :
    insertSeg m (key ++ '=' :: X) = mapInsert m key X := by
  have hseg_head : ∀ c, (key ++ '=' :: X).head? = some c → isSpaceChar c = false := by
    intro c hc
    cases key with
    | nil => exact absurd rfl hk4
    | cons k0 ks =>
      rw [List.cons_append, List.head?_cons] at hc
      cases hc
      exact edgeOK_head hkh _ rfl
  have hseg_last : ∀ c, (key ++ '=' :: X).getLast? = some c → isSpaceChar c = false := by
    intro c hc
    have hne1 : ('=' :: X : List Char) ≠ [] := by simp
    rw [List.getLast?_append_of_ne_nil key hne1] at hc
    have h2 : ('=' :: X).getLast? = X.getLast? := by
      rw [show ('=' :: X : List Char) = ['='] ++ X from rfl,
        List.getLast?_append_of_ne_nil _ hXne]
    rw [h2] at hc
    exact edgeOK_last hXs c hc
  have htrim : trimSpaceL (key ++ '=' :: X) = key ++ '=' :: X := by
    rw [trimSpaceL, dropWhile_eq_self_of_head _ _ hseg_head,
      dropRightW_eq_self_of_getLast _ _ hseg_last]
  have hXtrim : trimSpaceL X = X := by
    rw [trimSpaceL, dropWhile_eq_self_of_head _ _ (edgeOK_head hXs),
      dropRightW_eq_self_of_getLast _ _ (edgeOK_last hXs)]
  have hXquo : trimQuotesL X = X := by
    rw [trimQuotesL, dropWhile_eq_self_of_head _ _ (edgeOK_head hXq),
      dropRightW_eq_self_of_getLast _ _ (edgeOK_last hXq)]
  have hsp : splitFirst '=' (key ++ '=' :: X) = some (key, X) := splitFirst_key X hk3
  have hnonempty : (key ++ '=' :: X).isEmpty = false := by
    cases key with
    | nil => exact absurd rfl hk4
    | cons a b => rfl
  simp only [insertSeg, htrim, hnonempty, Bool.false_eq_true, if_false, hsp]
  simp only [hXtrim, hXquo, hk1, hk2]
  rw [if_pos ⟨hk4, hXne⟩]

/-- The line of the C7 round trip, built exactly to the claim's template
with bracketed timestamp T and the marker followed by the four
pipe-separated fields decision, reason, sha256 and path. -/
def rtLine (T R S P : List Char) : List Char :=
  '[' :: (T ++ ']' :: ' ' :: (markerL ++
    ((String.toList "decision" ++ '=' :: String.toList "ALLOW") ++ '|' ::
      ((reasonKey ++ '=' :: R) ++ '|' ::
        ((shaKey ++ '=' :: S) ++ '|' ::
          (pathKey ++ '=' :: P))))))

example :
    rtLine (String.toList "t") (String.toList "r") (String.toList "s") (String.toList "p")
      = String.toList "[t] santad: decision=ALLOW|reason=r|sha256=s|path=p" := by decide

/-- C7 counterexample: with T = t, R = a quote-wrapped r (non-empty and
bracket-, pipe- and equals-free, so allowed by the claim as stated),
S = s, P = p, the extracted reason is r without the quotes, so the round
trip does not return R. -/
theorem roundTrip_C7_cex :
    mapGet (extractValues (rtLine (String.toList "t") (squote :: 'r' :: [squote])
        (String.toList "s") (String.toList "p"))) reasonKey
      ≠ squote :: 'r' :: [squote] := by
  decide

/-- C7 amended: for all non-empty T, R, S, P with T free of right
brackets and not containing the marker, R, S, P free of pipes and equals
signs, and — as the code's trimming forces — R, S, P carrying no leading
or trailing whitespace or quote characters, feeding the template line
through extractValues and building a LogEntry from the timestamp, path,
reason and sha256 keys yields exactly Timestamp=T, Application=P,
Reason=R, SHA256=S. -/
theorem roundTrip_C7 (T R S P : List Char)
    (hT : T ≠ []) (hTb : ']' ∉ T)
    (hTm : containsSub markerL (('[' :: T) ++ [']', ' ']) = false)
    (hR : R ≠ []) (hRp : '|' ∉ R) (hRe : '=' ∉ R)
    (hRs : edgeOK isSpaceChar R = true) (hRq : edgeOK isQuoteChar R = true)
    (hS : S ≠ []) (hSp : '|' ∉ S) (hSe : '=' ∉ S)
    (hSs : edgeOK isSpaceChar S = true) (hSq : edgeOK isQuoteChar S = true)
    (hP : P ≠ []) (hPp : '|' ∉ P) (hPe : '=' ∉ P)
    (hPs : edgeOK isSpaceChar P = true) (hPq : edgeOK isQuoteChar P = true) :
    LogEntry.mk (mapGet (extractValues (rtLine T R S P)) tsKey)
        (mapGet (extractValues (rtLine T R S P)) pathKey)
        (mapGet (extractValues (rtLine T R S P)) reasonKey)
        (mapGet (extractValues (rtLine T R S P)) shaKey)
      = ⟨T, P, R, S⟩ := by
  have hline : rtLine T R S P = ('[' :: T) ++ ']' :: ' ' :: (markerL ++
      ((String.toList "decision" ++ '=' :: String.toList "ALLOW") ++ '|' ::
        ((reasonKey ++ '=' :: R) ++ '|' ::
          ((shaKey ++ '=' :: S) ++ '|' ::
            (pathKey ++ '=' :: P))))) := by
    simp [rtLine]
  have ham : afterMarker (rtLine T R S P) = some
      ((String.toList "decision" ++ '=' :: String.toList "ALLOW") ++ '|' ::
        ((reasonKey ++ '=' :: R) ++ '|' ::
          ((shaKey ++ '=' :: S) ++ '|' ::
            (pathKey ++ '=' :: P)))) := by
    rw [hline]
    exact afterMarker_glue _ _ hTm
  have hfts : findTimestamp (rtLine T R S P) = some T := by
    rw [hline, List.cons_append]
    exact findTimestamp_head _ hT hTb
  have htsm : tsOnlyMap (rtLine T R S P) = mapInsert mapEmpty tsKey T := by
    rw [tsOnlyMap, hfts]
  have hp1 : '|' ∉ (String.toList "decision" ++ '=' :: String.toList "ALLOW") := by decide
  have hp2 : '|' ∉ (reasonKey ++ '=' :: R) := by
    intro hm
    rcases List.mem_append.mp hm with hm | hm
    · exact absurd hm (by decide)
    · rcases List.mem_cons.mp hm with hm | hm
      · exact absurd hm (by decide)
      · exact hRp hm
  have hp3 : '|' ∉ (shaKey ++ '=' :: S) := by
    intro hm
    rcases List.mem_append.mp hm with hm | hm
    · exact absurd hm (by decide)
    · rcases List.mem_cons.mp hm with hm | hm
      · exact absurd hm (by decide)
      · exact hSp hm
  have hp4 : '|' ∉ (pathKey ++ '=' :: P) := by
    intro hm
    rcases List.mem_append.mp hm with hm | hm
    · exact absurd hm (by decide)
    · rcases List.mem_cons.mp hm with hm | hm
      · exact absurd hm (by decide)
      · exact hPp hm
  have hsplit : splitOnChar '|'
      ((String.toList "decision" ++ '=' :: String.toList "ALLOW") ++ '|' ::
        ((reasonKey ++ '=' :: R) ++ '|' ::
          ((shaKey ++ '=' :: S) ++ '|' ::
            (pathKey ++ '=' :: P))))
      = [String.toList "decision" ++ '=' :: String.toList "ALLOW",
         reasonKey ++ '=' :: R, shaKey ++ '=' :: S, pathKey ++ '=' :: P] := by
    rw [splitOnChar_append_pipe _ hp1, splitOnChar_append_pipe _ hp2,
      splitOnChar_append_pipe _ hp3, splitOnChar_no_pipe hp4]
  have hfold : extractValues (rtLine T R S P)
      = insertSeg (insertSeg (insertSeg (insertSeg (mapInsert mapEmpty tsKey T)
          (String.toList "decision" ++ '=' :: String.toList "ALLOW"))
          (reasonKey ++ '=' :: R)) (shaKey ++ '=' :: S)) (pathKey ++ '=' :: P) := by
    unfold extractValues
    simp only [ham]
    rw [hsplit, htsm]
    rfl
  have hs1 : insertSeg (mapInsert mapEmpty tsKey T)
      (String.toList "decision" ++ '=' :: String.toList "ALLOW")
      = mapInsert (mapInsert mapEmpty tsKey T) (String.toList "decision")
          (String.toList "ALLOW") :=
    insertSeg_kv _ _ _ (by decide) (by decide) (by decide) (by decide) (by decide)
      (by decide) (by decide) (by decide)
  have hs2 : ∀ m : SMap, insertSeg m (reasonKey ++ '=' :: R) = mapInsert m reasonKey R :=
    fun m => insertSeg_kv m _ _ (by decide) (by decide) (by decide) (by decide) (by decide)
      hR hRs hRq
  have hs3 : ∀ m : SMap, insertSeg m (shaKey ++ '=' :: S) = mapInsert m shaKey S :=
    fun m => insertSeg_kv m _ _ (by decide) (by decide) (by decide) (by decide) (by decide)
      hS hSs hSq
  have hs4 : ∀ m : SMap, insertSeg m (pathKey ++ '=' :: P) = mapInsert m pathKey P :=
    fun m => insertSeg_kv m _ _ (by decide) (by decide) (by decide) (by decide) (by decide)
      hP hPs hPq
  rw [hfold, hs1, hs2, hs3, hs4]
  have n1 : (tsKey = pathKey) = False := by decide
  have n2 : (tsKey = shaKey) = False := by decide
  have n3 : (tsKey = reasonKey) = False := by decide
  have n4 : (tsKey = ['d', 'e', 'c', 'i', 's', 'i', 'o', 'n']) = False := by decide
  have n5 : (reasonKey = pathKey) = False := by decide
  have n6 : (reasonKey = shaKey) = False := by decide
  have n7 : (shaKey = pathKey) = False := by decide
  simp [mapGet, mapInsert, n1, n2, n3, n4, n5, n6, n7]

/-- C7 witness: the concrete sample line round-trips into the expected
LogEntry through the amended theorem. -/
theorem roundTrip_C7_witness :
    LogEntry.mk
        (mapGet (extractValues (rtLine (String.toList "2024-01-15 10:30:45.123")
          (String.toList "CERT") (String.toList "abc123") (String.toList "/usr/bin/test"))) tsKey)
        (mapGet (extractValues (rtLine (String.toList "2024-01-15 10:30:45.123")
          (String.toList "CERT") (String.toList "abc123") (String.toList "/usr/bin/test"))) pathKey)
        (mapGet (extractValues (rtLine (String.toList "2024-01-15 10:30:45.123")
          (String.toList "CERT") (String.toList "abc123") (String.toList "/usr/bin/test"))) reasonKey)
        (mapGet (extractValues (rtLine (String.toList "2024-01-15 10:30:45.123")
          (String.toList "CERT") (String.toList "abc123") (String.toList "/usr/bin/test"))) shaKey)
      = ⟨String.toList "2024-01-15 10:30:45.123", String.toList "/usr/bin/test",
         String.toList "CERT", String.toList "abc123"⟩ :=
  roundTrip_C7 _ _ _ _ (by decide) (by decide) (by decide) (by decide) (by decide)
    (by decide) (by decide) (by decide) (by decide) (by decide) (by decide) (by decide)
    (by decide) (by decide) (by decide) (by decide) (by decide) (by decide)

example :
    mapGet (extractValues (String.toList
      "[2024-01-15 10:30:45.123] santad: decision=ALLOW|reason=CERT|sha256=abc123|path=/usr/bin/test"))
      reasonKey = String.toList "CERT" := by decide

example :
    mapGet (extractValues (String.toList
      "[2024-01-15 10:30:45.123] santad: decision=ALLOW|reason=CERT|sha256=abc123|path=/usr/bin/test"))
      tsKey = String.toList "2024-01-15 10:30:45.123" := by decide

example : extractValues (String.toList "") pathKey = none := by decide

end Santa
